import Mathlib

/-!
Verification of the subtitle extraction/merge pipeline of comfy-groq-tager.

Texts are modelled as lists of characters (Python strings are sequences of
code points), timestamps as rationals (the algorithms use only arithmetic
that is exact on the floats they actually receive), and fallible calls as
`Except`.
-/

namespace CGT

unseal Rat.mul Rat.add Rat.sub Rat.inv

set_option maxRecDepth 4000

/-- A Python string, as its list of code points. -/
abbrev Txt := List Char

/-- Python `int()` applied to a (finite) float: truncation toward zero. -/
def pyInt (q : ℚ) : ℤ := if q < 0 then -(Rat.floor (-q)) else Rat.floor q

/-- The character set Python `str.strip()` removes. -/
def isPySpace (c : Char) : Bool :=
  c = ' ' || c = '\t' || c = '\n' || c = '\r' || c = '\x0b' || c = '\x0c'

/-- Strip characters satisfying `p` from both ends (Python `str.strip`). -/
def stripWith (p : Char → Bool) (l : Txt) : Txt :=
  ((l.dropWhile p).reverse.dropWhile p).reverse

/-- Python `str.strip()` with no argument. -/
def pyStrip : Txt → Txt := stripWith isPySpace

/-- Does `l` start with `pat` (Python `str.startswith`)? -/
def startsWithL : Txt → Txt → Bool
  | _, [] => true
  | [], _ :: _ => false
  | c :: l, p :: ps => c = p && startsWithL l ps

/-- Python substring containment `pat in l` (contiguous). -/
def containsSubL : Txt → Txt → Bool
  | l, pat =>
    if startsWithL l pat then true
    else
      match l with
      | [] => false
      | _ :: l' => containsSubL l' pat

/-- Recursion core of `pyReplace`; the fuel (an upper bound on the length of
the remaining text, so the zero case is only reached on `[]`) makes the
recursion structural so that it evaluates inside the kernel. -/
def pyReplaceGo (pat repl : Txt) : Nat → Txt → Txt
  | 0, s => s
  | _ + 1, [] => []
  | fuel + 1, c :: rest =>
    if pat ≠ [] ∧ startsWithL (c :: rest) pat
    then repl ++ pyReplaceGo pat repl fuel ((c :: rest).drop pat.length)
    else c :: pyReplaceGo pat repl fuel rest

/-- Python `s.replace(pat, repl)` for a non-empty `pat`: left-to-right,
non-overlapping.  (For `pat = []` this is the identity; the source only
replaces the two-character watermark `"抖音"`.) -/
def pyReplace (pat repl : Txt) (s : Txt) : Txt :=
  pyReplaceGo pat repl s.length s

/-!
### difflib.SequenceMatcher (Python standard library), as used by
`smart_subtitle.similar`: `SequenceMatcher(None, a, b).ratio()`.

`ratio` is `2*M / (len a + len b)` (and `1.0` when both are empty), where
`M` is the total size of the matching blocks found by the recursive
greedy longest-match procedure.  Sorting and merging of adjacent blocks in
`get_matching_blocks` do not change the total size, so only the total is
modelled.  With `isjunk = None` the junk set `bjunk` is empty; the
autojunk purge of popular elements (when `len b ≥ 200`) is modelled in
`b2j`.
-/

/-- Ascending positions of `c` in `b` (the `b2j` table before purging). -/
def indexList (b : Txt) (c : Char) : List Nat :=
  (List.range b.length).filter (fun i => b.getD i ' ' == c)

/-- The `b2j` table after the autojunk purge: when `len b ≥ 200`, characters
occurring more than `len b / 100 + 1` times are removed from the table. -/
def b2j (b : Txt) (c : Char) : List Nat :=
  let idxs := indexList b c
  if 200 ≤ b.length && b.length / 100 + 1 < idxs.length then [] else idxs

/-- Result of `find_longest_match`: block start in `a`, start in `b`, size. -/
structure Best where
  i : Nat
  j : Nat
  size : Nat
deriving Repr, DecidableEq

/-- `dict.get k d` on an association list. -/
def lookupD (m : List (Nat × Nat)) (k : Nat) (d : Nat) : Nat :=
  match m.find? (fun p => p.1 == k) with
  | some p => p.2
  | none => d

/-- The inner `j` loop of `find_longest_match` at row `i`: `js` is `b2j[a[i]]`
(ascending), `prev` the previous row's `j2len`, `acc` the new row being
built.  `j < blo` is skipped, `j ≥ bhi` breaks; a run of length
`k = j2len[j-1] + 1` ending at `(i, j)` updates the best on strict
improvement.  (In Python `j-1` of `j = 0` is `-1`, never a key, hence the
guard.) -/
def innerJ (blo bhi i : Nat) : List Nat → List (Nat × Nat) → List (Nat × Nat) → Best →
    List (Nat × Nat) × Best
  | [], _, acc, best => (acc, best)
  | j :: js, prev, acc, best =>
    if j < blo then innerJ blo bhi i js prev acc best
    else if bhi ≤ j then (acc, best)
    else
      let k := (if j = 0 then 0 else lookupD prev (j - 1) 0) + 1
      let best' := if best.size < k then ⟨i + 1 - k, j + 1 - k, k⟩ else best
      innerJ blo bhi i js prev ((j, k) :: acc) best'

/-- The outer `i` loop of `find_longest_match`, over `n` rows starting at
row `i`, threading the `j2len` table. -/
def rowsLoop (a : Txt) (tab : Char → List Nat) (blo bhi : Nat) :
    Nat → Nat → List (Nat × Nat) → Best → Best
  | _, 0, _, best => best
  | i, n + 1, prev, best =>
    let r := innerJ blo bhi i (tab (a.getD i ' ')) prev [] best
    rowsLoop a tab blo bhi (i + 1) n r.1 r.2

/-- Leftward extension loop of `find_longest_match` (`ok` is the membership
test the loop applies to `b[bestj-1]`); structural recursion on `i`, which
the loop decrements while `alo < i`. -/
def extendL (a b : Txt) (ok : Char → Bool) (alo blo : Nat) : Nat → Nat → Nat → Best
  | 0, j, size => ⟨0, j, size⟩
  | i + 1, j, size =>
    if alo < i + 1 ∧ blo < j ∧ ok (b.getD (j - 1) ' ') = true ∧
        a.getD i ' ' = b.getD (j - 1) ' '
    then extendL a b ok alo blo i (j - 1) (size + 1)
    else ⟨i + 1, j, size⟩

/-- Recursion core of `extendR`; the fuel is kept equal to `ahi - (i + size)`,
so running out of fuel coincides with the loop guard `i + size < ahi`
failing. -/
def extendRGo (a b : Txt) (ok : Char → Bool) (ahi bhi i j : Nat) : Nat → Nat → Nat
  | 0, size => size
  | fuel + 1, size =>
    if i + size < ahi ∧ j + size < bhi ∧ ok (b.getD (j + size) ' ') = true ∧
        a.getD (i + size) ' ' = b.getD (j + size) ' '
    then extendRGo a b ok ahi bhi i j fuel (size + 1)
    else size

/-- Rightward extension loop of `find_longest_match`. -/
def extendR (a b : Txt) (ok : Char → Bool) (ahi bhi : Nat) (i j : Nat) (size : Nat) : Nat :=
  extendRGo a b ok ahi bhi i j (ahi - (i + size)) size

/-- `find_longest_match(alo, ahi, blo, bhi)`.  With `isjunk = None` the junk
set is empty, so the non-junk extension tests are vacuous (`true`) and the
junk extension loops never fire (`false`). -/
def flm (a b : Txt) (tab : Char → List Nat) (alo ahi blo bhi : Nat) : Best :=
  let best := rowsLoop a tab blo bhi alo (ahi - alo) [] ⟨alo, blo, 0⟩
  let best := extendL a b (fun _ => true) alo blo best.i best.j best.size
  let best : Best := ⟨best.i, best.j, extendR a b (fun _ => true) ahi bhi best.i best.j best.size⟩
  let best := extendL a b (fun _ => false) alo blo best.i best.j best.size
  ⟨best.i, best.j, extendR a b (fun _ => false) ahi bhi best.i best.j best.size⟩

/-- Total size of all matching blocks found by `get_matching_blocks`'s
recursion (`fuel` dominates the recursion depth; `a.length + b.length + 1`
always suffices). -/
def matchTotal (a b : Txt) (tab : Char → List Nat) : Nat → Nat → Nat → Nat → Nat → Nat
  | 0, _, _, _, _ => 0
  | fuel + 1, alo, ahi, blo, bhi =>
    let m := flm a b tab alo ahi blo bhi
    if m.size = 0 then 0
    else
      (if alo < m.i ∧ blo < m.j then matchTotal a b tab fuel alo m.i blo m.j else 0)
      + m.size
      + (if m.i + m.size < ahi ∧ m.j + m.size < bhi then
          matchTotal a b tab fuel (m.i + m.size) ahi (m.j + m.size) bhi
        else 0)

/-- `smart_subtitle.similar a b = SequenceMatcher(None, a, b).ratio()`. -/
def similar (a b : Txt) : ℚ :=
  let M := matchTotal a b (b2j b) (a.length + b.length + 1) 0 a.length 0 b.length
  if a.length + b.length = 0 then 1
  else (2 * M : ℚ) / ((a.length + b.length : ℕ) : ℚ)

example : similar "abtcd".data "cdabzt".data = 6/11 := by decide
example : similar "cdabzt".data "abtcd".data = 4/11 := by decide
example : similar "hello world".data "hello world expanded".data = 22/31 := by decide
example : similar "abcd".data "abcde".data = 8/9 := by decide
example : similar [] [] = 1 := by decide
example : similar "a".data [] = 0 := by decide
example : similar "abc".data "abc".data = 1 := by decide
example : similar "abab".data "ba".data = 2/3 := by decide
example : similar "xyzzy".data "zzyxy".data = 3/5 := by decide
example : similar "aaa".data "aa".data = 4/5 := by decide
example : similar "abcabc".data "cba".data = 2/9 := by decide
example : similar "测试字幕".data "测试字幕啊".data = 8/9 := by decide

/-!
### smart_subtitle.merge_subtitles

Subtitle entries are `(timestamp, text)` pairs.  The function has four
phases, modelled separately and composed in `merge_subtitles`:
window-matching of video entries against an audio dictionary, the
leftover-audio pass, the stable sort by timestamp, and the clean/dedup
pass.  Python sets are modelled as lists used only through membership and
existential tests.
-/

/-- One insertion into a Python dict (later insertions overwrite in place). -/
def dictInsert (k : ℤ) (v : Txt) : List (ℤ × Txt) → List (ℤ × Txt)
  | [] => [(k, v)]
  | (k', v') :: rest =>
    if k' = k then (k', v) :: rest else (k', v') :: dictInsert k v rest

/-- `audio_dict = {int(timestamp): text for timestamp, text in audio_subs}`. -/
def buildAudioDict (audio : List (ℚ × Txt)) : List (ℤ × Txt) :=
  audio.foldl (fun d p => dictInsert (pyInt p.1) p.2 d) []

/-- Dict lookup (`k in d` / `d[k]`). -/
def dictGet? (d : List (ℤ × Txt)) (k : ℤ) : Option Txt :=
  match d.find? (fun p => p.1 == k) with
  | some p => some p.2
  | none => none

/-- Python `range(lo, hi)` over integers. -/
def pyRange (lo hi : ℤ) : List ℤ := (List.range (hi - lo).toNat).map (fun n => lo + n)

/-- State of the best-match scan for one video entry: the chosen
`(matched_time, best_match)` if any, and `best_score`. -/
structure MatchSt where
  best : Option (ℤ × Txt)
  score : ℚ
deriving DecidableEq

/-- One iteration of the matching loop: a candidate integer second is
considered when it is a key of the audio dict and not yet consumed, and it
replaces the running best when its score beats it and exceeds 0.3. -/
def matchStep (dict : List (ℤ × Txt)) (used : List ℤ) (vText : Txt)
    (st : MatchSt) (aTime : ℤ) : MatchSt :=
  match dictGet? dict aTime with
  | none => st
  | some aText =>
    if aTime ∈ used then st
    else
      let s := similar vText aText
      if st.score < s ∧ 3/10 < s then ⟨some (aTime, aText), s⟩ else st

/-- The scan over `range(max(0, v_time_int - 2), v_time_int + 3)`. -/
def bestAudioMatch (dict : List (ℤ × Txt)) (used : List ℤ)
    (vTimeInt : ℤ) (vText : Txt) : MatchSt :=
  (pyRange (max 0 (vTimeInt - 2)) (vTimeInt + 3)).foldl (matchStep dict used vText) ⟨none, 0⟩

/-- State threaded through step 1: `merged`, `used_audio`, `seen_texts`. -/
structure St1 where
  merged : List (ℚ × Txt)
  used : List ℤ
  seen : List Txt
deriving DecidableEq

/-- The no-match branch of step 1: keep the video entry unless its text was
already seen. -/
def keepVideo (st : St1) (v : ℚ × Txt) : St1 :=
  if v.2 ∈ st.seen then st
  else { st with merged := st.merged ++ [v], seen := v.2 :: st.seen }

/-- Step 1 for one video entry.  `if best_match:` is Python truthiness, so a
best match whose text is the empty string falls into the video branch and
does not consume its audio slot. -/
def step1Entry (dict : List (ℤ × Txt)) (st : St1) (v : ℚ × Txt) : St1 :=
  let m := bestAudioMatch dict st.used (pyInt v.1) v.2
  match m.best with
  | none => keepVideo st v
  | some (aTime, aText) =>
    if aText = [] then keepVideo st v
    else
      let fin := if v.2.length < aText.length then aText else v.2
      if fin ∈ st.seen then { st with used := aTime :: st.used }
      else { merged := st.merged ++ [(v.1, fin)], used := aTime :: st.used,
             seen := fin :: st.seen }

/-- Step 1: the loop over all video entries. -/
def step1 (video audio : List (ℚ × Txt)) : St1 :=
  video.foldl (step1Entry (buildAudioDict audio)) ⟨[], [], []⟩

/-- Step 2 for one audio entry: skipped when its integer second was consumed
or its text already seen; otherwise appended unless some already-merged
entry lies strictly within 2 seconds. -/
def step2Entry (used : List ℤ) (st : List (ℚ × Txt) × List Txt) (a : ℚ × Txt) :
    List (ℚ × Txt) × List Txt :=
  if pyInt a.1 ∈ used ∨ a.2 ∈ st.2 then st
  else if st.1.any (fun m => |m.1 - a.1| < 2) then st
  else (st.1 ++ [a], a.2 :: st.2)

/-- Step 2: the loop over all audio entries, continuing step 1's state. -/
def step2 (audio : List (ℚ × Txt)) (used : List ℤ)
    (merged : List (ℚ × Txt)) (seen : List Txt) : List (ℚ × Txt) × List Txt :=
  audio.foldl (step2Entry used) (merged, seen)

/-- Stable insertion into a list sorted by timestamp (ties keep the existing
element first, so the fold below is a stable sort; Python's `list.sort` is
stable, and stable sorts by a key agree on all inputs). -/
def insertByTime (p : ℚ × Txt) : List (ℚ × Txt) → List (ℚ × Txt)
  | [] => [p]
  | q :: rest => if q.1 < p.1 then q :: insertByTime p rest else p :: q :: rest

/-- `merged.sort(key=lambda x: x[0])`. -/
def sortByTime (l : List (ℚ × Txt)) : List (ℚ × Txt) :=
  l.foldr insertByTime []

/-- The text cleanup of the final pass:
`text.strip()`, then `replace("抖音", "").strip()`. -/
def cleanText (t : Txt) : Txt := pyStrip (pyReplace "抖音".data [] (pyStrip t))

/-- The final pass: clean each text, drop it when shorter than 2
characters, drop it when some previously kept text is more than
0.7-similar, keep it otherwise. -/
def cleanDedup : List Txt → List (ℚ × Txt) → List (ℚ × Txt)
  | _, [] => []
  | seen, (t, x) :: rest =>
    let x' := cleanText x
    if x'.length < 2 then cleanDedup seen rest
    else if seen.any (fun s => 7/10 < similar x' s) then cleanDedup seen rest
    else (t, x') :: cleanDedup (x' :: seen) rest

/-- `smart_subtitle.merge_subtitles`. -/
def merge_subtitles (video audio : List (ℚ × Txt)) : List (ℚ × Txt) :=
  let s1 := step1 video audio
  let s2 := step2 audio s1.used s1.merged s1.seen
  cleanDedup [] (sortByTime s2.1)

example :
    merge_subtitles [(5, "hello world".data)] [(5, "hello world expanded".data)]
      = [(5, "hello world expanded".data)] := by decide
example :
    merge_subtitles [(5, "foo".data)] [(40, "bar".data)]
      = [(5, "foo".data), (40, "bar".data)] := by decide
example :
    merge_subtitles [(1, "abcde".data), (5, "abcd".data)] [(5, "abcde".data)]
      = [(1, "abcde".data)] := by decide
example :
    merge_subtitles [(0, "hello".data)] [(40, "hello".data)]
      = [(0, "hello".data)] := by decide
example :
    merge_subtitles [(1, "测试字幕".data), (6/5, "测试字幕啊".data)] []
      = [(1, "测试字幕".data)] := by decide

/-! ### Facts about `pyInt` -/

theorem ratFloor_eq_floor (q : ℚ) : (Rat.floor q : ℤ) = ⌊q⌋ :=
  le_antisymm (Int.le_floor.mpr (Rat.le_floor.mp le_rfl)) (Rat.le_floor.mpr (Int.floor_le q))

/-- Truncation toward zero differs from its argument by less than 1. -/
theorem abs_sub_pyInt_lt (q : ℚ) : |q - (pyInt q : ℚ)| < 1 := by
  unfold pyInt
  split
  next hneg =>
    rw [ratFloor_eq_floor]
    have h1 : ((⌊-q⌋ : ℚ)) ≤ -q := Int.floor_le _
    have h2 : -q < ⌊-q⌋ + 1 := Int.lt_floor_add_one _
    rw [abs_lt]
    push_cast
    constructor <;> linarith
  next hpos =>
    rw [ratFloor_eq_floor]
    have h1 : ((⌊q⌋ : ℚ)) ≤ q := Int.floor_le _
    have h2 : q < ⌊q⌋ + 1 := Int.lt_floor_add_one _
    rw [abs_lt]
    constructor <;> linarith

/-- Two timestamps truncating to the same integer second are strictly
within 2 seconds of each other. -/
theorem abs_sub_lt_two_of_pyInt_eq {s t : ℚ} (h : pyInt s = pyInt t) :
    |s - t| < 2 := by
  have hs := abs_sub_pyInt_lt s
  have ht := abs_sub_pyInt_lt t
  rw [abs_lt] at hs ht ⊢
  rw [h] at hs
  constructor <;> linarith [hs.1, hs.2, ht.1, ht.2]

/-! ### The sort of step 3 -/

theorem mem_insertByTime {x p : ℚ × Txt} {l : List (ℚ × Txt)} :
    x ∈ insertByTime p l ↔ x = p ∨ x ∈ l := by
  induction l with
  | nil => simp [insertByTime]
  | cons q rest ih =>
    simp only [insertByTime]
    split
    · simp only [List.mem_cons, ih]
      try tauto
    · simp only [List.mem_cons]
      try tauto

theorem insertByTime_sorted {p : ℚ × Txt} {l : List (ℚ × Txt)}
    (h : l.Pairwise (fun u v => u.1 ≤ v.1)) :
    (insertByTime p l).Pairwise (fun u v => u.1 ≤ v.1) := by
  induction l with
  | nil => simp [insertByTime]
  | cons q rest ih =>
    rcases List.pairwise_cons.mp h with ⟨hq, hrest⟩
    simp only [insertByTime]
    split
    next hlt =>
      refine List.pairwise_cons.mpr ⟨?_, ih hrest⟩
      intro x hx
      rcases mem_insertByTime.mp hx with rfl | hx
      · exact le_of_lt hlt
      · exact hq x hx
    next hge =>
      refine List.pairwise_cons.mpr ⟨?_, h⟩
      intro x hx
      rcases List.mem_cons.mp hx with rfl | hx
      · exact le_of_not_lt hge
      · exact le_trans (le_of_not_lt hge) (hq x hx)

theorem sortByTime_sorted (l : List (ℚ × Txt)) :
    (sortByTime l).Pairwise (fun u v => u.1 ≤ v.1) := by
  induction l with
  | nil => simp [sortByTime]
  | cons p rest ih => exact insertByTime_sorted ih

/-! ### The clean/dedup pass of step 3 -/

/-- Every entry kept by the final pass stems from an input entry with the
same timestamp, and its text stays at most 0.7-similar (in the direction
the pass computes) to every text of the incoming seen set. -/
theorem cleanDedup_mem (seen : List Txt) (l : List (ℚ × Txt)) :
    ∀ p ∈ cleanDedup seen l,
      (∃ x, (p.1, x) ∈ l) ∧ ∀ s ∈ seen, similar p.2 s ≤ 7/10 := by
  induction l generalizing seen with
  | nil => simp [cleanDedup]
  | cons hd rest ih =>
    obtain ⟨t, x⟩ := hd
    intro p hp
    simp only [cleanDedup] at hp
    split at hp
    · rcases ih seen p hp with ⟨⟨y, hy⟩, hs⟩
      exact ⟨⟨y, List.mem_cons_of_mem _ hy⟩, hs⟩
    · split at hp
      · rcases ih seen p hp with ⟨⟨y, hy⟩, hs⟩
        exact ⟨⟨y, List.mem_cons_of_mem _ hy⟩, hs⟩
      next hlen hany =>
        rcases List.mem_cons.mp hp with rfl | hp
        · refine ⟨⟨x, List.mem_cons_self _ _⟩, ?_⟩
          intro s hs
          by_contra hgt
          exact hany (List.any_eq_true.mpr ⟨s, hs, by
            simpa using lt_of_not_le hgt⟩)
        · rcases ih (cleanText x :: seen) p hp with ⟨⟨y, hy⟩, hs⟩
          exact ⟨⟨y, List.mem_cons_of_mem _ hy⟩,
            fun s hs' => hs s (List.mem_cons_of_mem _ hs')⟩

/-- On a time-sorted input the final pass yields a time-sorted output in
which every later text is at most 0.7-similar to every earlier kept text. -/
theorem cleanDedup_sorted (seen : List Txt) (l : List (ℚ × Txt))
    (hl : l.Pairwise (fun u v => u.1 ≤ v.1)) :
    (cleanDedup seen l).Pairwise
      (fun u v => u.1 ≤ v.1 ∧ similar v.2 u.2 ≤ 7/10) := by
  induction l generalizing seen with
  | nil => simp [cleanDedup]
  | cons hd rest ih =>
    obtain ⟨t, x⟩ := hd
    rcases List.pairwise_cons.mp hl with ⟨hfirst, hrest⟩
    simp only [cleanDedup]
    split
    · exact ih seen hrest
    · split
      · exact ih seen hrest
      next hlen hany =>
        refine List.pairwise_cons.mpr ⟨?_, ih _ hrest⟩
        intro q hq
        rcases cleanDedup_mem _ _ q hq with ⟨⟨y, hy⟩, hsim⟩
        exact ⟨hfirst (q.1, y) hy, hsim (cleanText x) (List.mem_cons_self _ _)⟩

/-- C1: for all input video and audio streams, the output of
`merge_subtitles` is sorted ascending by timestamp, and no two entries have
text similarity above 0.7: for every earlier entry `u` and later entry `v`
of the output, `u.1 ≤ v.1` and `similar v.2 u.2 ≤ 0.7` — the similarity the
greedy first-seen-wins dedup computes between a candidate and the already
kept entries. -/
theorem merge_subtitles_sorted_dedup (video audio : List (ℚ × Txt)) :
    (merge_subtitles video audio).Pairwise
      (fun u v => u.1 ≤ v.1 ∧ similar v.2 u.2 ≤ 7/10) := by
  unfold merge_subtitles
  exact cleanDedup_sorted [] _ (sortByTime_sorted _)

/-! ### Structure of steps 1 and 2 -/

theorem step1Entry_merged_append (d : List (ℤ × Txt)) (st : St1) (v : ℚ × Txt) :
    ∃ δ, (step1Entry d st v).merged = st.merged ++ δ := by
  cases hb : (bestAudioMatch d st.used (pyInt v.1) v.2).best with
  | none =>
    simp only [step1Entry, hb, keepVideo]
    repeat' split
    all_goals first
      | exact ⟨_, rfl⟩
      | exact ⟨[], (List.append_nil _).symm⟩
  | some p =>
    obtain ⟨aT, aX⟩ := p
    simp only [step1Entry, hb, keepVideo]
    repeat' split
    all_goals first
      | exact ⟨_, rfl⟩
      | exact ⟨[], (List.append_nil _).symm⟩

theorem step1_fold_merged_append (d : List (ℤ × Txt)) (st : St1) (l : List (ℚ × Txt)) :
    ∃ δ, (List.foldl (step1Entry d) st l).merged = st.merged ++ δ := by
  induction l generalizing st with
  | nil => exact ⟨[], (List.append_nil _).symm⟩
  | cons x xs ih =>
    rcases step1Entry_merged_append d st x with ⟨δ1, h1⟩
    rcases ih (step1Entry d st x) with ⟨δ2, h2⟩
    exact ⟨δ1 ++ δ2, by rw [List.foldl_cons, h2, h1, List.append_assoc]⟩

/-- The step-1 update for a video entry whose best-match scan found a
non-empty audio text. -/
theorem step1Entry_match (d : List (ℤ × Txt)) (st : St1) (v : ℚ × Txt)
    (aT : ℤ) (aX : Txt)
    (hbest : (bestAudioMatch d st.used (pyInt v.1) v.2).best = some (aT, aX))
    (hne : aX ≠ []) :
    step1Entry d st v =
      (if (if v.2.length < aX.length then aX else v.2) ∈ st.seen
       then { st with used := aT :: st.used }
       else { merged := st.merged ++ [(v.1, if v.2.length < aX.length then aX else v.2)],
              used := aT :: st.used,
              seen := (if v.2.length < aX.length then aX else v.2) :: st.seen }) := by
  simp only [step1Entry, hbest]
  rw [if_neg hne]

/-- C2 (amended): a video entry matched in step 1 to a non-empty audio text
contributes exactly one entry to the intermediate merged list, at the video
entry's timestamp, carrying the longer of the two texts (ties keep the
video text) — unless that text was already emitted, in which case nothing
is appended; and the concrete example merges to exactly one entry with the
longer text. -/
theorem step1_match_merges (video audio : List (ℚ × Txt)) (pre post : List (ℚ × Txt))
    (v : ℚ × Txt) (st : St1) (aT : ℤ) (aX fin : Txt)
    (hsplit : video = pre ++ v :: post)
    (hst : st = List.foldl (step1Entry (buildAudioDict audio)) ⟨[], [], []⟩ pre)
    (hbest : (bestAudioMatch (buildAudioDict audio) st.used (pyInt v.1) v.2).best
      = some (aT, aX))
    (hne : aX ≠ [])
    (hfin : fin = if v.2.length < aX.length then aX else v.2) :
    (∃ rest, (step1 video audio).merged
      = st.merged ++ (if fin ∈ st.seen then [] else [(v.1, fin)]) ++ rest)
    ∧ merge_subtitles [(5, "hello world".data)] [(5, "hello world expanded".data)]
        = [(5, "hello world expanded".data)] := by
  constructor
  · subst hsplit hst hfin
    unfold step1
    rw [List.foldl_append, List.foldl_cons,
      step1Entry_match (buildAudioDict audio) _ v aT aX hbest hne]
    set st := List.foldl (step1Entry (buildAudioDict audio)) ⟨[], [], []⟩ pre with hst
    by_cases hseen : (if v.2.length < aX.length then aX else v.2) ∈ st.seen
    · rw [if_pos hseen, if_pos hseen]
      rcases step1_fold_merged_append (buildAudioDict audio)
        { st with used := aT :: st.used } post with ⟨δ, hδ⟩
      exact ⟨δ, by simpa using hδ⟩
    · rw [if_neg hseen, if_neg hseen]
      rcases step1_fold_merged_append (buildAudioDict audio)
        { merged := st.merged ++ [(v.1, if v.2.length < aX.length then aX else v.2)],
          used := aT :: st.used,
          seen := (if v.2.length < aX.length then aX else v.2) :: st.seen } post with ⟨δ, hδ⟩
      exact ⟨δ, by simpa [List.append_assoc] using hδ⟩
  · decide

/-- Witness for `step1_match_merges` at the spec's concrete example. -/
theorem step1_match_merges_witness :
    ∃ rest, (step1 [(5, "hello world".data)] [(5, "hello world expanded".data)]).merged
      = ([] : List (ℚ × Txt))
        ++ (if "hello world expanded".data ∈ ([] : List Txt)
            then [] else [((5 : ℚ), "hello world expanded".data)]) ++ rest := by
  have h := step1_match_merges [(5, "hello world".data)] [(5, "hello world expanded".data)]
    [] [] (5, "hello world".data) ⟨[], [], []⟩ 5 "hello world expanded".data
    "hello world expanded".data rfl rfl (by decide) (by decide) (by decide)
  exact h.1

/-- C2 counterexample: with video `[(1,"abcde"), (5,"abcd")]` and audio
`[(5,"abcde")]`, the entry `(5,"abcd")` is matched in step 1 (the scan
returns the audio text `"abcde"` with score 8/9 > 0.3, and the prior state
consumed nothing), yet the output contains no entry at timestamp 5 at all:
the longer text `"abcde"` was already emitted at timestamp 1, so the claim
"emits exactly one merged entry at v's timestamp" fails. -/
theorem step1_match_emission_counterexample :
    (bestAudioMatch (buildAudioDict [(5, "abcde".data)]) [] (pyInt 5) "abcd".data).best
        = some (5, "abcde".data)
    ∧ (3/10 : ℚ)
        < (bestAudioMatch (buildAudioDict [(5, "abcde".data)]) [] (pyInt 5) "abcd".data).score
    ∧ step1 [(1, "abcde".data)] [(5, "abcde".data)]
        = ⟨[(1, "abcde".data)], [], ["abcde".data]⟩
    ∧ merge_subtitles [(1, "abcde".data), (5, "abcd".data)] [(5, "abcde".data)]
        = [(1, "abcde".data)] := by
  decide

theorem step2Entry_merged_append (used : List ℤ) (st : List (ℚ × Txt) × List Txt)
    (a : ℚ × Txt) : ∃ δ, (step2Entry used st a).1 = st.1 ++ δ := by
  unfold step2Entry
  split
  · exact ⟨[], (List.append_nil _).symm⟩
  · split
    · exact ⟨[], (List.append_nil _).symm⟩
    · exact ⟨[a], rfl⟩

theorem step2_fold_merged_append (used : List ℤ) (st : List (ℚ × Txt) × List Txt)
    (l : List (ℚ × Txt)) :
    ∃ δ, (List.foldl (step2Entry used) st l).1 = st.1 ++ δ := by
  induction l generalizing st with
  | nil => exact ⟨[], (List.append_nil _).symm⟩
  | cons x xs ih =>
    rcases step2Entry_merged_append used st x with ⟨δ1, h1⟩
    rcases ih (step2Entry used st x) with ⟨δ2, h2⟩
    exact ⟨δ1 ++ δ2, by rw [List.foldl_cons, h2, h1, List.append_assoc]⟩

/-- C3 (amended): an audio entry whose integer second was not consumed in
step 1 **and whose text has not been seen**, with no already-merged entry
strictly within 2 seconds when it is reached, is appended unchanged (same
timestamp, same text) to the intermediate merged list by step 2. -/
theorem step2_leftover_emitted (audio : List (ℚ × Txt)) (used : List ℤ)
    (merged : List (ℚ × Txt)) (seen : List Txt) (pre post : List (ℚ × Txt))
    (a : ℚ × Txt) (st : List (ℚ × Txt) × List Txt)
    (hsplit : audio = pre ++ a :: post)
    (hst : st = List.foldl (step2Entry used) (merged, seen) pre)
    (hu : pyInt a.1 ∉ used)
    (hs : a.2 ∉ st.2)
    (hover : ∀ m ∈ st.1, ¬(|m.1 - a.1| < 2)) :
    ∃ rest, (step2 audio used merged seen).1 = st.1 ++ [a] ++ rest := by
  subst hsplit hst
  unfold step2
  set st := List.foldl (step2Entry used) (merged, seen) pre with hstdef
  have hentry : step2Entry used st a = (st.1 ++ [a], a.2 :: st.2) := by
    unfold step2Entry
    rw [if_neg (by push_neg; exact ⟨hu, hs⟩), if_neg (by
      simp only [List.any_eq_true, decide_eq_true_eq, not_exists, not_and]
      intro m hm
      exact hover m hm)]
  rw [List.foldl_append, List.foldl_cons, hentry]
  rcases step2_fold_merged_append used (st.1 ++ [a], a.2 :: st.2) post with ⟨δ, hδ⟩
  exact ⟨δ, hδ⟩

/-- Witness for `step2_leftover_emitted`: audio `(40, "bar")` against a
merged list holding only `(5, "foo")` is emitted unchanged. -/
theorem step2_leftover_emitted_witness :
    ∃ rest, (step2 [((40 : ℚ), "bar".data)] [] [((5 : ℚ), "foo".data)] ["foo".data]).1
      = [((5 : ℚ), "foo".data)] ++ [((40 : ℚ), "bar".data)] ++ rest := by
  have h := step2_leftover_emitted [((40 : ℚ), "bar".data)] [] [((5 : ℚ), "foo".data)]
    ["foo".data] [] [] ((40 : ℚ), "bar".data) ([((5 : ℚ), "foo".data)], ["foo".data])
    rfl rfl (by decide) (by decide) (by decide)
  exact h

/-- C3 counterexample: with video `[(0,"hello")]` and audio
`[(40,"hello")]`, the audio entry is unconsumed after step 1 (`used = []`)
and the only emitted entry sits at timestamp 0, 40 seconds away — yet the
output is just `[(0,"hello")]`: the entry is dropped because its text was
already seen, so the claim "if no already-emitted entry lies within 2
seconds, the audio entry is emitted unchanged" fails. -/
theorem step2_leftover_counterexample :
    step1 [((0 : ℚ), "hello".data)] [((40 : ℚ), "hello".data)]
        = ⟨[((0 : ℚ), "hello".data)], [], ["hello".data]⟩
    ∧ merge_subtitles [((0 : ℚ), "hello".data)] [((40 : ℚ), "hello".data)]
        = [((0 : ℚ), "hello".data)] := by
  decide

theorem dictGet?_insert (d : List (ℤ × Txt)) (k k' : ℤ) (v : Txt) :
    dictGet? (dictInsert k v d) k' = if k' = k then some v else dictGet? d k' := by
  induction d with
  | nil =>
    by_cases h : k' = k
    · subst h
      simp [dictInsert, dictGet?, List.find?]
    · simp only [dictInsert, dictGet?, List.find?]
      rw [if_neg h, beq_eq_false_iff_ne.mpr (fun hh => h hh.symm)]
  | cons p rest ih =>
    obtain ⟨pk, pv⟩ := p
    by_cases hpk : pk = k
    · subst hpk
      simp only [dictInsert, if_pos rfl, dictGet?, List.find?]
      by_cases h : k' = pk
      · subst h
        rw [if_pos rfl, beq_self_eq_true]
      · rw [if_neg h, beq_eq_false_iff_ne.mpr (fun hh => h hh.symm)]
    · simp only [dictInsert, if_neg hpk]
      by_cases hk' : pk = k'
      · subst hk'
        simp only [dictGet?, List.find?, beq_self_eq_true]
        rw [if_neg hpk]
      · simp only [dictGet?, List.find?] at ih ⊢
        rw [beq_eq_false_iff_ne.mpr hk']
        exact ih

theorem buildAudioDict_append (l : List (ℚ × Txt)) (p : ℚ × Txt) :
    buildAudioDict (l ++ [p]) = dictInsert (pyInt p.1) p.2 (buildAudioDict l) := by
  unfold buildAudioDict
  rw [List.foldl_append]
  rfl

/-- The audio dict realizes Python's dict-comprehension semantics: each
integer second maps to the last entry in input order truncating to it. -/
theorem buildAudioDict_lastWins (audio : List (ℚ × Txt)) (s : ℤ) :
    dictGet? (buildAudioDict audio) s
      = ((audio.filter (fun p => pyInt p.1 == s)).map Prod.snd).getLast? := by
  induction audio using List.reverseRecOn with
  | nil => rfl
  | append_singleton l p ih =>
    rw [buildAudioDict_append, dictGet?_insert, List.filter_append, List.map_append]
    by_cases h : pyInt p.1 = s
    · rw [if_pos h.symm]
      have hb : (pyInt p.1 == s) = true := beq_iff_eq.mpr h
      have hf : List.filter (fun q => pyInt q.1 == s) [p] = [p] := by
        simp [List.filter, hb]
      rw [hf]
      simp
    · rw [if_neg (fun hh => h hh.symm)]
      have hb : (pyInt p.1 == s) = false := beq_eq_false_iff_ne.mpr h
      have hf : List.filter (fun q => pyInt q.1 == s) [p] = [] := by
        simp [List.filter, hb]
      rw [hf]
      simp [ih]

/-- Step 2 appends a suffix of entries none of which has a consumed integer
second, none of which overlaps a previously merged entry within 2 seconds,
and which pairwise never overlap within 2 seconds. -/
theorem step2_structure (audio : List (ℚ × Txt)) (used : List ℤ)
    (merged : List (ℚ × Txt)) (seen : List Txt) :
    ∃ δ, (step2 audio used merged seen).1 = merged ++ δ ∧
      (∀ p ∈ δ, pyInt p.1 ∉ used) ∧
      (∀ p ∈ δ, ∀ q ∈ merged, ¬(|q.1 - p.1| < 2)) ∧
      δ.Pairwise (fun p q => ¬(|p.1 - q.1| < 2)) := by
  induction audio generalizing merged seen with
  | nil => exact ⟨[], by simp [step2]⟩
  | cons a rest ih =>
    unfold step2 at ih ⊢
    rw [List.foldl_cons]
    by_cases hok : pyInt a.1 ∈ used ∨ a.2 ∈ seen
    · have he : step2Entry used (merged, seen) a = (merged, seen) := by
        simp only [step2Entry]
        rw [if_pos hok]
      rw [he]
      exact ih merged seen
    · by_cases hnoover : (merged.any fun m => decide (|m.1 - a.1| < 2)) = true
      · have he : step2Entry used (merged, seen) a = (merged, seen) := by
          simp only [step2Entry]
          rw [if_neg hok, if_pos hnoover]
        rw [he]
        exact ih merged seen
      · have he : step2Entry used (merged, seen) a = (merged ++ [a], a.2 :: seen) := by
          simp only [step2Entry]
          rw [if_neg hok, if_neg hnoover]
        rw [he]
        rcases ih (merged ++ [a]) (a.2 :: seen) with ⟨δ, hδ, hu, hm, hp⟩
        refine ⟨a :: δ, ?_, ?_, ?_, ?_⟩
        · rw [hδ, List.append_assoc]
          rfl
        · intro p hp'
          rcases List.mem_cons.mp hp' with rfl | hp'
          · exact fun hmem => hok (Or.inl hmem)
          · exact hu p hp'
        · intro p hp' q hq
          rcases List.mem_cons.mp hp' with rfl | hp'
          · intro habs
            exact hnoover (by
              simp only [List.any_eq_true, decide_eq_true_eq]
              exact ⟨q, hq, habs⟩)
          · exact hm p hp' q (List.mem_append_left _ hq)
        · refine List.pairwise_cons.mpr ⟨?_, hp⟩
          intro p hp'
          exact hm p hp' a (by simp)

/-- C10: audio entries are keyed by truncated integer second.  (i) The
audio dict built in step 1 maps each integer second to the text of the
**last** audio entry in input order whose timestamp truncates to it — only
that text is visible to step-1 matching, which consults the dict alone.
(ii) Step 2 appends a suffix in which no entry's integer second was
consumed by a step-1 match, so every audio entry sharing a consumed second
is excluded; and the appended entries have pairwise distinct integer
seconds, so at most one leftover audio text per integer second reaches the
output. -/
theorem audio_keyed_by_second (video audio : List (ℚ × Txt)) :
    (∀ s : ℤ, dictGet? (buildAudioDict audio) s
        = ((audio.filter (fun p => pyInt p.1 == s)).map Prod.snd).getLast?)
    ∧ ∃ δ, (step2 audio (step1 video audio).used (step1 video audio).merged
          (step1 video audio).seen).1
        = (step1 video audio).merged ++ δ
      ∧ (∀ p ∈ δ, pyInt p.1 ∉ (step1 video audio).used)
      ∧ δ.Pairwise (fun p q => pyInt p.1 ≠ pyInt q.1) := by
  constructor
  · intro s
    exact buildAudioDict_lastWins audio s
  · rcases step2_structure audio (step1 video audio).used (step1 video audio).merged
      (step1 video audio).seen with ⟨δ, hδ, hu, _, hp⟩
    refine ⟨δ, hδ, hu, ?_⟩
    exact hp.imp (fun h heq => h (abs_sub_lt_two_of_pyInt_eq heq))

/-! ### Bounds on the matching blocks of the SequenceMatcher embedding -/

/-- A candidate block lies inside the region `[alo, ahi) × [blo, bhi)`. -/
def BestIn (alo ahi blo bhi : Nat) (m : Best) : Prop :=
  alo ≤ m.i ∧ m.i + m.size ≤ ahi ∧ blo ≤ m.j ∧ m.j + m.size ≤ bhi

theorem lookupD_mem_or (m : List (Nat × Nat)) (k d : Nat) :
    lookupD m k d = d ∨ (k, lookupD m k d) ∈ m := by
  unfold lookupD
  cases hf : m.find? (fun p => p.1 == k) with
  | none => exact Or.inl rfl
  | some p =>
    obtain ⟨pk, pv⟩ := p
    have h1 : pk = k := by simpa using List.find?_some hf
    subst h1
    exact Or.inr (List.mem_of_find?_eq_some hf)

/-- Row invariant of the inner loop: the new `j2len` row keeps runs no
longer than both the column offset and the number of rows seen, and the
best block stays inside the region. -/
theorem innerJ_bounds (alo ahi blo bhi i : Nat) (hia : alo ≤ i) (hih : i < ahi) :
    ∀ (js : List Nat) (prev acc : List (Nat × Nat)) (best : Best),
    (∀ kv ∈ prev, blo ≤ kv.1 ∧ kv.1 < bhi ∧ kv.2 ≤ kv.1 + 1 - blo ∧ kv.2 ≤ i - alo) →
    (∀ kv ∈ acc, blo ≤ kv.1 ∧ kv.1 < bhi ∧ kv.2 ≤ kv.1 + 1 - blo ∧ kv.2 ≤ i + 1 - alo) →
    BestIn alo ahi blo bhi best →
    (∀ kv ∈ (innerJ blo bhi i js prev acc best).1,
        blo ≤ kv.1 ∧ kv.1 < bhi ∧ kv.2 ≤ kv.1 + 1 - blo ∧ kv.2 ≤ i + 1 - alo)
    ∧ BestIn alo ahi blo bhi (innerJ blo bhi i js prev acc best).2 := by
  intro js
  induction js with
  | nil => exact fun prev acc best _ hacc hbest => ⟨hacc, hbest⟩
  | cons j js ih =>
    intro prev acc best hprev hacc hbest
    simp only [innerJ]
    by_cases hjlo : j < blo
    · rw [if_pos hjlo]
      exact ih prev acc best hprev hacc hbest
    · rw [if_neg hjlo]
      by_cases hjhi : bhi ≤ j
      · rw [if_pos hjhi]
        exact ⟨hacc, hbest⟩
      · rw [if_neg hjhi]
        have hblo : blo ≤ j := le_of_not_lt hjlo
        have hbhi : j < bhi := lt_of_not_ge hjhi
        set k := (if j = 0 then 0 else lookupD prev (j - 1) 0) + 1 with hkdef
        have hk12 : k ≤ j + 1 - blo ∧ k ≤ i + 1 - alo := by
          rw [hkdef]
          by_cases hj0 : j = 0
          · subst hj0
            have hblo0 : blo = 0 := Nat.le_zero.mp hblo
            rw [if_pos rfl]
            omega
          · rw [if_neg hj0]
            rcases lookupD_mem_or prev (j - 1) 0 with hz | hmem
            · rw [hz]
              omega
            · rcases hprev _ hmem with ⟨h1, _, h3, h4⟩
              omega
        obtain ⟨hk1, hk2⟩ := hk12
        refine ih prev _ _ hprev ?_ ?_
        · intro kv hkv
          rcases List.mem_cons.mp hkv with rfl | hkv
          · exact ⟨hblo, hbhi, hk1, hk2⟩
          · exact hacc kv hkv
        · by_cases hlt : best.size < k
          · rw [if_pos hlt]
            refine ⟨?_, ?_, ?_, ?_⟩ <;> dsimp only <;> omega
          · rw [if_neg hlt]
            exact hbest

theorem rowsLoop_bounds (a : Txt) (tab : Char → List Nat) (alo blo bhi ahi : Nat) :
    ∀ (n i : Nat) (prev : List (Nat × Nat)) (best : Best),
    alo ≤ i → i + n ≤ ahi →
    (∀ kv ∈ prev, blo ≤ kv.1 ∧ kv.1 < bhi ∧ kv.2 ≤ kv.1 + 1 - blo ∧ kv.2 ≤ i - alo) →
    BestIn alo ahi blo bhi best →
    BestIn alo ahi blo bhi (rowsLoop a tab blo bhi i n prev best) := by
  intro n
  induction n with
  | zero => exact fun i prev best _ _ _ hbest => hbest
  | succ n ih =>
    intro i prev best hia hn hprev hbest
    rw [rowsLoop]
    have hih : i < ahi := by omega
    rcases innerJ_bounds alo ahi blo bhi i hia hih (tab (a.getD i ' ')) prev [] best
      hprev (by simp) hbest with ⟨hrow, hbest'⟩
    refine ih (i + 1) _ _ (by omega) (by omega) ?_ hbest'
    intro kv hkv
    rcases hrow kv hkv with ⟨h1, h2, h3, h4⟩
    exact ⟨h1, h2, h3, by omega⟩

theorem extendL_bounds (a b : Txt) (ok : Char → Bool) (alo blo ahi bhi : Nat) :
    ∀ (i j size : Nat), alo ≤ i → blo ≤ j → i + size ≤ ahi → j + size ≤ bhi →
    BestIn alo ahi blo bhi (extendL a b ok alo blo i j size) := by
  intro i
  induction i with
  | zero =>
    intro j size h1 h2 h3 h4
    rw [extendL]
    exact ⟨h1, h3, h2, h4⟩
  | succ i ih =>
    intro j size h1 h2 h3 h4
    rw [extendL]
    split
    next h =>
      exact ih (j - 1) (size + 1) (by omega) (by omega) (by omega) (by omega)
    next h =>
      exact ⟨h1, h3, h2, h4⟩

theorem extendRGo_bounds (a b : Txt) (ok : Char → Bool) (ahi bhi i j : Nat) :
    ∀ (fuel size : Nat), i + size ≤ ahi → j + size ≤ bhi →
    i + extendRGo a b ok ahi bhi i j fuel size ≤ ahi
    ∧ j + extendRGo a b ok ahi bhi i j fuel size ≤ bhi := by
  intro fuel
  induction fuel with
  | zero => exact fun size h1 h2 => ⟨h1, h2⟩
  | succ fuel ih =>
    intro size h1 h2
    rw [extendRGo]
    split
    next h => exact ih (size + 1) (by omega) (by omega)
    next h => exact ⟨h1, h2⟩

/-- The block returned by `find_longest_match` lies inside the region. -/
theorem flm_bounds (a b : Txt) (tab : Char → List Nat) (alo ahi blo bhi : Nat)
    (h1 : alo ≤ ahi) (h2 : blo ≤ bhi) :
    BestIn alo ahi blo bhi (flm a b tab alo ahi blo bhi) := by
  unfold flm
  have hrows : BestIn alo ahi blo bhi
      (rowsLoop a tab blo bhi alo (ahi - alo) [] ⟨alo, blo, 0⟩) :=
    rowsLoop_bounds a tab alo blo bhi ahi (ahi - alo) alo [] ⟨alo, blo, 0⟩
      le_rfl (by omega) (by simp) ⟨le_rfl, by simpa, le_rfl, by simpa⟩
  set m0 := rowsLoop a tab blo bhi alo (ahi - alo) [] ⟨alo, blo, 0⟩ with hm0
  rcases hrows with ⟨g1, g2, g3, g4⟩
  have hL1 : BestIn alo ahi blo bhi (extendL a b (fun _ => true) alo blo m0.i m0.j m0.size) :=
    extendL_bounds a b _ alo blo ahi bhi m0.i m0.j m0.size g1 g3 g2 g4
  set m1 := extendL a b (fun _ => true) alo blo m0.i m0.j m0.size with hm1
  rcases hL1 with ⟨f1, f2, f3, f4⟩
  have hR1 := extendRGo_bounds a b (fun _ => true) ahi bhi m1.i m1.j
    (ahi - (m1.i + m1.size)) m1.size f2 f4
  set s1 := extendRGo a b (fun _ => true) ahi bhi m1.i m1.j (ahi - (m1.i + m1.size)) m1.size
    with hs1
  have hL2 : BestIn alo ahi blo bhi (extendL a b (fun _ => false) alo blo m1.i m1.j s1) :=
    extendL_bounds a b _ alo blo ahi bhi m1.i m1.j s1 f1 f3 hR1.1 hR1.2
  set m2 := extendL a b (fun _ => false) alo blo m1.i m1.j s1 with hm2
  rcases hL2 with ⟨e1, e2, e3, e4⟩
  have hR2 := extendRGo_bounds a b (fun _ => false) ahi bhi m2.i m2.j
    (ahi - (m2.i + m2.size)) m2.size e2 e4
  exact ⟨e1, hR2.1, e3, hR2.2⟩

/-- The total size of all matching blocks is at most the size of each side
of the region. -/
theorem matchTotal_le (a b : Txt) (tab : Char → List Nat) :
    ∀ (fuel alo ahi blo bhi : Nat), alo ≤ ahi → blo ≤ bhi →
    matchTotal a b tab fuel alo ahi blo bhi ≤ ahi - alo
    ∧ matchTotal a b tab fuel alo ahi blo bhi ≤ bhi - blo := by
  intro fuel
  induction fuel with
  | zero => intro alo ahi blo bhi _ _; simp [matchTotal]
  | succ fuel ih =>
    intro alo ahi blo bhi h1 h2
    rw [matchTotal]
    rcases flm_bounds a b tab alo ahi blo bhi h1 h2 with ⟨g1, g2, g3, g4⟩
    set m := flm a b tab alo ahi blo bhi with hm
    by_cases hz : m.size = 0
    · simp [hz]
    · rw [if_neg hz]
      have hleft : (if alo < m.i ∧ blo < m.j then matchTotal a b tab fuel alo m.i blo m.j else 0)
          ≤ m.i - alo
          ∧ (if alo < m.i ∧ blo < m.j then matchTotal a b tab fuel alo m.i blo m.j else 0)
          ≤ m.j - blo := by
        split
        next h => exact ih alo m.i blo m.j (by omega) (by omega)
        next h => exact ⟨Nat.zero_le _, Nat.zero_le _⟩
      have hright : (if m.i + m.size < ahi ∧ m.j + m.size < bhi then
            matchTotal a b tab fuel (m.i + m.size) ahi (m.j + m.size) bhi else 0)
          ≤ ahi - (m.i + m.size)
          ∧ (if m.i + m.size < ahi ∧ m.j + m.size < bhi then
            matchTotal a b tab fuel (m.i + m.size) ahi (m.j + m.size) bhi else 0)
          ≤ bhi - (m.j + m.size) := by
        split
        next h => exact ih (m.i + m.size) ahi (m.j + m.size) bhi (by omega) (by omega)
        next h => exact ⟨Nat.zero_le _, Nat.zero_le _⟩
      constructor
      · have := hleft.1
        have := hright.1
        omega
      · have := hleft.2
        have := hright.2
        omega

/-- C9 (amended): `similar` is a total function (the computation never
throws) whose value always lies in `[0, 1]`.  Symmetry, the dropped third
part of the claim, fails: see `similar_not_symmetric`. -/
theorem similar_range (a b : Txt) : 0 ≤ similar a b ∧ similar a b ≤ 1 := by
  unfold similar
  by_cases hT : a.length + b.length = 0
  · rw [if_pos hT]
    norm_num
  · rw [if_neg hT]
    have hM := matchTotal_le a b (b2j b) (a.length + b.length + 1) 0 a.length 0 b.length
      (Nat.zero_le _) (Nat.zero_le _)
    set M := matchTotal a b (b2j b) (a.length + b.length + 1) 0 a.length 0 b.length with hMdef
    have hMa : M ≤ a.length := by simpa using hM.1
    have hMb : M ≤ b.length := by simpa using hM.2
    have hTpos : (0 : ℚ) < ((a.length + b.length : ℕ) : ℚ) := by
      exact_mod_cast Nat.pos_of_ne_zero hT
    constructor
    · positivity
    · rw [div_le_one hTpos]
      have : (2 * M : ℕ) ≤ a.length + b.length := by omega
      exact_mod_cast this

/-- C9 counterexample: `similar` is not symmetric.
`SequenceMatcher(None,"abtcd","cdabzt").ratio()` is `6/11` (blocks `"ab"`
and `"t"`), while with the arguments swapped the greedy first longest
match `"cd"` leaves no recursable region and the ratio is `4/11`. -/
theorem similar_not_symmetric :
    similar "abtcd".data "cdabzt".data = 6/11
    ∧ similar "cdabzt".data "abtcd".data = 4/11
    ∧ similar "abtcd".data "cdabzt".data ≠ similar "cdabzt".data "abtcd".data := by
  decide

/-!
### The text filter of `extract_text_from_frame` (video_analysis.py)

The recognizer's raw output is stripped; rejected when it contains an
"explanation" phrase or is longer than 50 characters; stripped of quote
characters; rejected when at most one character remains.
-/

/-- The `ignore_phrases` list of `extract_text_from_frame`. -/
def ignoreList : List Txt :=
  ["图片中".data, "显示".data, "字幕是".data, "内容是".data, "文字是".data,
   "我看到".data, "这是".data, "这个".data, "有".data, "没有".data,
   "字幕内容".data, "文本".data, "识别到".data]

/-- The text filter applied to the recognizer output (lines 161-184 of
`video_analysis.py`). -/
def textFilter (raw : Txt) : Txt :=
  let text := pyStrip raw
  if ignoreList.any (fun p => containsSubL text p) then []
  else if 50 < text.length then []
  else
    let text2 := stripWith (fun c => c = '\'') (stripWith (fun c => c = '"') text)
    if text2 ≠ [] ∧ 1 < text2.length then pyStrip text2 else []

example : textFilter "hello".data = "hello".data := by decide
example : textFilter " 这是测试 ".data = [] := by decide
example : textFilter "ab".data = "ab".data := by decide

/-! #### Substring machinery -/

theorem startsWithL_iff (pat : Txt) : ∀ l : Txt, startsWithL l pat = true ↔ ∃ v, l = pat ++ v := by
  induction pat with
  | nil =>
    intro l
    simp only [startsWithL, List.nil_append, true_iff]
    exact ⟨l, rfl⟩
  | cons p ps ih =>
    intro l
    cases l with
    | nil => simp [startsWithL]
    | cons c l' =>
      simp only [startsWithL, Bool.and_eq_true, decide_eq_true_eq, ih l']
      constructor
      · rintro ⟨rfl, v, rfl⟩
        exact ⟨v, rfl⟩
      · rintro ⟨v, hv⟩
        injection hv with h1 h2
        exact ⟨h1, v, h2⟩

theorem containsSubL_iff (pat : Txt) : ∀ l : Txt,
    containsSubL l pat = true ↔ ∃ u v, l = u ++ pat ++ v := by
  intro l
  induction l with
  | nil =>
    rw [containsSubL]
    by_cases hs : startsWithL [] pat = true
    · rw [if_pos hs]
      rcases (startsWithL_iff pat []).mp hs with ⟨v, hv⟩
      simp only [true_iff]
      exact ⟨[], v, by simpa using hv⟩
    · rw [if_neg hs]
      constructor
      · intro h
        cases h
      · rintro ⟨u, v, huv⟩
        have hu := List.append_eq_nil.mp huv.symm
        have hp := (List.append_eq_nil.mp hu.1).2
        exact absurd ((startsWithL_iff pat []).mpr
          ⟨[], by simp [hp]⟩) hs
  | cons c l' ih =>
    rw [containsSubL]
    by_cases hs : startsWithL (c :: l') pat = true
    · rw [if_pos hs]
      rcases (startsWithL_iff pat _).mp hs with ⟨v, hv⟩
      simp only [true_iff]
      exact ⟨[], v, by simpa using hv⟩
    · rw [if_neg hs]
      rw [ih]
      constructor
      · rintro ⟨u, v, huv⟩
        exact ⟨c :: u, v, by simp [huv]⟩
      · rintro ⟨u, v, huv⟩
        cases u with
        | nil =>
          exact absurd ((startsWithL_iff pat _).mpr ⟨v, by simpa using huv⟩) hs
        | cons u0 u' =>
          injection huv with h1 h2
          exact ⟨u', v, h2⟩

theorem dropWhile_suffix_decomp (p : Char → Bool) (l : Txt) :
    ∃ u, l = u ++ l.dropWhile p := by
  induction l with
  | nil => exact ⟨[], rfl⟩
  | cons c l' ih =>
    by_cases hc : p c = true
    · rw [List.dropWhile_cons, if_pos hc]
      rcases ih with ⟨u, hu⟩
      exact ⟨c :: u, by rw [List.cons_append, ← hu]⟩
    · rw [List.dropWhile_cons, if_neg hc]
      exact ⟨[], rfl⟩

theorem dropWhile_head_not (p : Char → Bool) (l : Txt) :
    ∀ c, (l.dropWhile p).head? = some c → p c = false := by
  induction l with
  | nil => simp
  | cons a l' ih =>
    intro c hc
    rw [List.dropWhile_cons] at hc
    split at hc
    · exact ih c hc
    next h =>
      simp only [List.head?_cons, Option.some.injEq] at hc
      subst hc
      simpa using h

theorem dropWhile_eq_self (p : Char → Bool) (l : Txt)
    (h : ∀ c, l.head? = some c → p c = false) : l.dropWhile p = l := by
  cases l with
  | nil => rfl
  | cons a l' =>
    rw [List.dropWhile_cons, if_neg]
    simp [h a rfl]

/-- What `stripWith` keeps is a contiguous segment of its input. -/
theorem stripWith_subSeg (p : Char → Bool) (l : Txt) :
    ∃ u v, l = u ++ stripWith p l ++ v := by
  rcases dropWhile_suffix_decomp p l with ⟨u, hu⟩
  rcases dropWhile_suffix_decomp p (l.dropWhile p).reverse with ⟨w, hw⟩
  refine ⟨u, w.reverse, ?_⟩
  calc l = u ++ l.dropWhile p := hu
    _ = u ++ ((l.dropWhile p).reverse).reverse := by rw [List.reverse_reverse]
    _ = u ++ (w ++ (l.dropWhile p).reverse.dropWhile p).reverse := by rw [← hw]
    _ = u ++ (stripWith p l ++ w.reverse) := by rw [List.reverse_append]; rfl
    _ = u ++ stripWith p l ++ w.reverse := by rw [List.append_assoc]

theorem stripWith_head (p : Char → Bool) (l : Txt) :
    ∀ c, (stripWith p l).head? = some c → p c = false := by
  intro c hc
  rcases dropWhile_suffix_decomp p (l.dropWhile p).reverse with ⟨w, hw⟩
  have hd1 : l.dropWhile p = stripWith p l ++ w.reverse := by
    conv_lhs => rw [← List.reverse_reverse (l.dropWhile p), hw]
    rw [List.reverse_append]
    rfl
  cases hy : stripWith p l with
  | nil => rw [hy] at hc; cases hc
  | cons y0 ys =>
    rw [hy] at hc
    simp only [List.head?_cons, Option.some.injEq] at hc
    subst hc
    apply dropWhile_head_not p l
    rw [hd1, hy]
    rfl

theorem stripWith_getLast (p : Char → Bool) (l : Txt) :
    ∀ c, (stripWith p l).getLast? = some c → p c = false := by
  intro c hc
  unfold stripWith at hc
  rw [List.getLast?_reverse] at hc
  exact dropWhile_head_not p _ c hc

theorem stripWith_eq_self (p : Char → Bool) (l : Txt)
    (hh : ∀ c, l.head? = some c → p c = false)
    (hl : ∀ c, l.getLast? = some c → p c = false) : stripWith p l = l := by
  unfold stripWith
  rw [dropWhile_eq_self p l hh,
    dropWhile_eq_self p l.reverse (fun c hc => hl c (by rwa [List.head?_reverse] at hc)),
    List.reverse_reverse]

theorem stripWith_idem (p : Char → Bool) (l : Txt) :
    stripWith p (stripWith p l) = stripWith p l :=
  stripWith_eq_self p _ (stripWith_head p l) (stripWith_getLast p l)

/-- When the filter accepts, it accepted through the final branch: no
phrase occurs in the stripped text, the stripped text is short enough, the
quote-stripped text is longer than 1, and the result is its strip. -/
theorem textFilter_shape (raw : Txt) (hne : textFilter raw ≠ []) :
    (∀ p ∈ ignoreList, containsSubL (pyStrip raw) p = false)
    ∧ (pyStrip raw).length ≤ 50
    ∧ textFilter raw
      = pyStrip (stripWith (fun c => c = '\'') (stripWith (fun c => c = '"') (pyStrip raw))) := by
  simp only [textFilter] at hne
  by_cases h1 : (ignoreList.any fun p => containsSubL (pyStrip raw) p) = true
  · rw [if_pos h1] at hne
    exact absurd rfl hne
  · rw [if_neg h1] at hne
    by_cases h2 : 50 < (pyStrip raw).length
    · rw [if_pos h2] at hne
      exact absurd rfl hne
    · rw [if_neg h2] at hne
      refine ⟨?_, by omega, ?_⟩
      · intro p hp
        cases hcp : containsSubL (pyStrip raw) p with
        | false => rfl
        | true => exact absurd (List.any_eq_true.mpr ⟨p, hp, hcp⟩) h1
      · simp only [textFilter]
        rw [if_neg h1, if_neg h2]
        split at hne
        next h3 =>
          rw [if_pos h3]
        next h3 =>
          exact absurd rfl hne

/-- C8 (amended): filtering the empty string yields empty again, and
whenever the filtered result has at least 2 characters and neither starts
nor ends with a quote character, filtering it a second time returns it
unchanged.  Unconditional idempotence fails (`textFilter_not_idempotent`):
a second pass can strip further quote characters or whitespace exposed by
the first pass. -/
theorem textFilter_conditionally_idempotent (raw : Txt)
    (hlen : 2 ≤ (textFilter raw).length)
    (hh1 : (textFilter raw).head? ≠ some '"')
    (hh2 : (textFilter raw).head? ≠ some '\'')
    (hl1 : (textFilter raw).getLast? ≠ some '"')
    (hl2 : (textFilter raw).getLast? ≠ some '\'') :
    textFilter (textFilter raw) = textFilter raw ∧ textFilter [] = [] := by
  refine ⟨?_, by decide⟩
  have hne : textFilter raw ≠ [] := by
    intro h
    rw [h] at hlen
    simp at hlen
  rcases textFilter_shape raw hne with ⟨hph, hlen50, heq⟩
  set y := textFilter raw with hy
  have hstrip : pyStrip y = y := by
    rw [heq]
    exact stripWith_idem _ _
  have hsub : ∃ u v, pyStrip raw = u ++ y ++ v := by
    rcases stripWith_subSeg (fun c => c = '"') (pyStrip raw) with ⟨u1, v1, h1⟩
    rcases stripWith_subSeg (fun c => c = '\'')
      (stripWith (fun c => c = '"') (pyStrip raw)) with ⟨u2, v2, h2⟩
    rcases stripWith_subSeg isPySpace
      (stripWith (fun c => c = '\'')
        (stripWith (fun c => c = '"') (pyStrip raw))) with ⟨u3, v3, h3⟩
    refine ⟨u1 ++ (u2 ++ u3), (v3 ++ v2) ++ v1, ?_⟩
    rw [h1, h2, h3, heq]
    simp [pyStrip, List.append_assoc]
  have hyph : ∀ p ∈ ignoreList, containsSubL y p = false := by
    intro p hp
    cases hq : containsSubL y p with
    | false => rfl
    | true =>
      exfalso
      rcases (containsSubL_iff p _).mp hq with ⟨u, v, huv⟩
      rcases hsub with ⟨u2, v2, h2⟩
      have hfull : containsSubL (pyStrip raw) p = true :=
        (containsSubL_iff p _).mpr
          ⟨u2 ++ u, v ++ v2, by rw [h2, huv]; simp [List.append_assoc]⟩
      rw [hph p hp] at hfull
      cases hfull
  have hy50 : y.length ≤ 50 := by
    rcases hsub with ⟨u, v, h⟩
    have hle : y.length ≤ (pyStrip raw).length := by
      rw [h]
      simp only [List.length_append]
      omega
    omega
  have hq1 : stripWith (fun c => c = '"') y = y :=
    stripWith_eq_self _ _
      (fun c hc => decide_eq_false (fun hceq => hh1 (hceq ▸ hc)))
      (fun c hc => decide_eq_false (fun hceq => hl1 (hceq ▸ hc)))
  have hq2 : stripWith (fun c => c = '\'') y = y :=
    stripWith_eq_self _ _
      (fun c hc => decide_eq_false (fun hceq => hh2 (hceq ▸ hc)))
      (fun c hc => decide_eq_false (fun hceq => hl2 (hceq ▸ hc)))
  have hany : ¬((ignoreList.any fun p => containsSubL y p) = true) := by
    intro hcon
    rcases List.any_eq_true.mp hcon with ⟨p, hp, hcp⟩
    rw [hyph p hp] at hcp
    cases hcp
  show textFilter y = y
  simp only [textFilter]
  rw [hstrip, if_neg hany, if_neg (by omega : ¬(50 < y.length)),
    hq1, hq2, if_pos ⟨hne, by omega⟩, hstrip]

/-- Witness for `textFilter_conditionally_idempotent` at `"hello"`. -/
theorem textFilter_conditionally_idempotent_witness :
    textFilter (textFilter "hello".data) = textFilter "hello".data
    ∧ textFilter [] = [] :=
  textFilter_conditionally_idempotent "hello".data (by decide) (by decide)
    (by decide) (by decide) (by decide)

/-- C8 counterexample: the filter is not idempotent.  On the raw string
`"a "` enclosed in double quotes, filtering yields the non-empty string
`a` (the quote strip exposes a space, the final strip removes it), but
filtering `a` again yields the empty string, because the length-greater-
than-1 rule now rejects it. -/
theorem textFilter_not_idempotent :
    textFilter "\"a \"".data = "a".data
    ∧ textFilter (textFilter "\"a \"".data) = []
    ∧ textFilter (textFilter "\"a \"".data) ≠ textFilter "\"a \"".data := by
  decide

/-!
### The frame-sampling loop of `video_analysis.extract_subtitles`

Modelled over an abstract decoded video: `fpsRaw` is the value of
`cap.get(CAP_PROP_FPS)` before `int()` truncation, `frames` the decoded
frame sequence, and `recognize` the outcome of the (retried)
`extract_text_from_frame` call on a sampled frame.  The downscale of
frames wider than 1920 px only changes the pixels handed to the abstract
recognizer.  `interval = int(fps * interval_seconds)` with no minimum
clamp; when it is 0, `frame_count % interval` raises `ZeroDivisionError`
at the first decoded frame.
-/

/-- The arithmetic failures of the sampling loop. -/
inductive PyErr where
  | zeroDivisionError
deriving Repr, DecidableEq

/-- The frame-walking loop (`while cap.isOpened(): ...`): a sampled
frame's recognition failure is caught and the loop continues with the next
frame; empty recognized text is not appended; `timestamp = frame_count / fps`.
Python `%` follows the divisor's sign (`Int.fmod`). -/
def extractGo {α ε : Type} (fps interval : ℤ) (recognize : α → Except ε Txt) :
    Nat → List α → List (ℚ × Txt)
  | _, [] => []
  | idx, f :: fs =>
    if (idx : ℤ).fmod interval = 0 then
      match recognize f with
      | .error _ => extractGo fps interval recognize (idx + 1) fs
      | .ok t =>
        if t = [] then extractGo fps interval recognize (idx + 1) fs
        else ((idx : ℚ) / (fps : ℚ), t) :: extractGo fps interval recognize (idx + 1) fs
    else extractGo fps interval recognize (idx + 1) fs

/-- `video_analysis.extract_subtitles`.  A zero interval only raises when
some frame is decoded, since `frame_count % interval` sits inside the
loop body. -/
def extract_subtitles_model {α ε : Type} (fpsRaw : ℚ) (frames : List α)
    (recognize : α → Except ε Txt) (intervalSeconds : ℚ) :
    Except PyErr (List (ℚ × Txt)) :=
  let fps := pyInt fpsRaw
  let interval := pyInt ((fps : ℚ) * intervalSeconds)
  if interval = 0 then
    match frames with
    | [] => .ok []
    | _ :: _ => .error .zeroDivisionError
  else .ok (extractGo fps interval recognize 0 frames)

/-- Python `round()`: banker's rounding, ties to the even integer.  Used
only to state what the claim asserts the sampling interval to be. -/
def pyRound (q : ℚ) : ℤ :=
  let f := Rat.floor q
  let r := q - f
  if r < 1/2 then f else if 1/2 < r then f + 1 else if f % 2 = 0 then f else f + 1

/-- The loop is the index-stamped `filterMap` of the per-frame outcome. -/
theorem extractGo_enumFrom {α ε : Type} (fps interval : ℤ)
    (recognize : α → Except ε Txt) :
    ∀ (idx : Nat) (l : List α),
    extractGo fps interval recognize idx l
      = (l.enumFrom idx).filterMap fun p =>
          if (p.1 : ℤ).fmod interval = 0 then
            match recognize p.2 with
            | .error _ => none
            | .ok t => if t = [] then none else some ((p.1 : ℚ) / (fps : ℚ), t)
          else none := by
  intro idx l
  induction l generalizing idx with
  | nil => rfl
  | cons f fs ih =>
    rw [extractGo, List.enumFrom, List.filterMap]
    by_cases hmod : (idx : ℤ).fmod interval = 0
    · rw [if_pos hmod]
      cases hr : recognize f with
      | error e => simpa [hmod, hr] using ih (idx + 1)
      | ok t =>
        by_cases ht : t = []
        · simpa [hmod, hr, ht] using ih (idx + 1)
        · simpa [hmod, hr, ht] using ih (idx + 1)
    · rw [if_neg hmod]
      simpa [hmod] using ih (idx + 1)

theorem mem_enumFrom_lt {α : Type} : ∀ (l : List α) (n : Nat) (x : Nat × α),
    x ∈ l.enumFrom n → x.1 < n + l.length := by
  intro l
  induction l with
  | nil => intro n x hx; cases hx
  | cons a l ih =>
    intro n x hx
    rw [List.enumFrom] at hx
    rcases List.mem_cons.mp hx with rfl | hx
    · simp
    · have := ih (n + 1) x hx
      simp only [List.length_cons]
      omega

/-- When the computed interval is non-zero the extraction returns the
`filterMap` of the per-frame outcome over the index-stamped frames. -/
theorem extract_model_ok {α ε : Type} (fpsRaw : ℚ) (frames : List α)
    (recognize : α → Except ε Txt) (intervalSeconds : ℚ)
    (hint : pyInt ((pyInt fpsRaw : ℚ) * intervalSeconds) ≠ 0) :
    extract_subtitles_model fpsRaw frames recognize intervalSeconds
      = .ok (frames.enum.filterMap fun p =>
          if (p.1 : ℤ).fmod (pyInt ((pyInt fpsRaw : ℚ) * intervalSeconds)) = 0 then
            match recognize p.2 with
            | .error _ => none
            | .ok t => if t = [] then none
                else some ((p.1 : ℚ) / ((pyInt fpsRaw : ℤ) : ℚ), t)
          else none) := by
  simp only [extract_subtitles_model]
  rw [if_neg hint, extractGo_enumFrom]
  rfl

/-- C7: per-frame recognition failures are skipped and sampling continues.
Whenever the computed interval is non-zero, the extraction never raises: it
returns the `filterMap` over all index-stamped frames in which a frame
whose recognition fails (even after the retries) contributes nothing,
while every other sampled frame's contribution is unchanged — so one bad
frame never aborts the extraction or affects the remaining frames. -/
theorem extract_skips_bad_frames {α ε : Type} (fpsRaw : ℚ) (frames : List α)
    (recognize : α → Except ε Txt) (intervalSeconds : ℚ)
    (hint : pyInt ((pyInt fpsRaw : ℚ) * intervalSeconds) ≠ 0) :
    extract_subtitles_model fpsRaw frames recognize intervalSeconds
      = .ok (frames.enum.filterMap fun p =>
          if (p.1 : ℤ).fmod (pyInt ((pyInt fpsRaw : ℚ) * intervalSeconds)) = 0 then
            match recognize p.2 with
            | .error _ => none
            | .ok t => if t = [] then none
                else some ((p.1 : ℚ) / ((pyInt fpsRaw : ℤ) : ℚ), t)
          else none) :=
  extract_model_ok fpsRaw frames recognize intervalSeconds hint

/-- Witness for `extract_skips_bad_frames`: the middle of three frames
fails recognition and is skipped, the outer two are emitted. -/
theorem extract_skips_bad_frames_witness :
    extract_subtitles_model (1 : ℚ) [0, 1, 2]
      (fun f : ℕ => if f = 1 then (.error "bad" : Except String Txt) else .ok "hi".data)
      (1 : ℚ)
      = .ok [(0, "hi".data), (2, "hi".data)] := by
  have h := extract_skips_bad_frames (1 : ℚ) [0, 1, 2]
    (fun f : ℕ => if f = 1 then (.error "bad" : Except String Txt) else .ok "hi".data)
    (1 : ℚ) (by decide)
  rw [h]
  simp only [Except.ok.injEq]
  decide

/-- C5 (amended): the sampling interval is `int(fps * interval_seconds)`
— truncated, not rounded, and with no minimum clamp: a zero interval
raises `ZeroDivisionError` at the first decoded frame.  Every emitted
entry's timestamp is `frame_index / fps` with `frame_index` a sampled
index (`frame_index % interval == 0`, `fps` the `int()`-truncated rate). -/
theorem extract_sampling_truncated {α ε : Type} (fpsRaw : ℚ) (frames : List α)
    (recognize : α → Except ε Txt) (intervalSeconds : ℚ) :
    (pyInt ((pyInt fpsRaw : ℚ) * intervalSeconds) = 0 → frames ≠ [] →
      extract_subtitles_model fpsRaw frames recognize intervalSeconds
        = .error .zeroDivisionError)
    ∧ (∀ l, pyInt ((pyInt fpsRaw : ℚ) * intervalSeconds) ≠ 0 →
        extract_subtitles_model fpsRaw frames recognize intervalSeconds = .ok l →
        ∀ p ∈ l, ∃ idx : ℕ, idx < frames.length
          ∧ (idx : ℤ).fmod (pyInt ((pyInt fpsRaw : ℚ) * intervalSeconds)) = 0
          ∧ p.1 = (idx : ℚ) / ((pyInt fpsRaw : ℤ) : ℚ)) := by
  constructor
  · intro h0 hne
    simp only [extract_subtitles_model]
    rw [if_pos h0]
    cases frames with
    | nil => exact absurd rfl hne
    | cons f fs => rfl
  · intro l hint hl p hp
    rw [extract_model_ok fpsRaw frames recognize intervalSeconds hint] at hl
    injection hl with hl
    rw [← hl] at hp
    rcases List.mem_filterMap.mp hp with ⟨q, hq, hf⟩
    refine ⟨q.1, ?_, ?_, ?_⟩
    · have := mem_enumFrom_lt frames 0 q hq
      simpa using this
    · by_contra hmod
      rw [if_neg hmod] at hf
      cases hf
    · by_cases hmod : (q.1 : ℤ).fmod (pyInt ((pyInt fpsRaw : ℚ) * intervalSeconds)) = 0
      · rw [if_pos hmod] at hf
        cases hr : recognize q.2 with
        | error e =>
          simp only [hr] at hf
          exact Option.noConfusion hf
        | ok t =>
          simp only [hr] at hf
          by_cases ht : t = []
          · rw [if_pos ht] at hf
            cases hf
          · rw [if_neg ht] at hf
            injection hf with hf
            rw [← hf]
      · rw [if_neg hmod] at hf
        cases hf

/-- Witness for `extract_sampling_truncated`: with a true rate of 10 fps
and a 0.05 s interval, `int(10 * 0.05) = 0` and the extraction raises
`ZeroDivisionError`; and with 30 fps sampled every 1/20 s the first
emitted timestamp of the non-zero-interval branch is reproduced. -/
theorem extract_sampling_truncated_witness :
    extract_subtitles_model (10 : ℚ) [0, 1]
        (fun _ : ℕ => (.ok "hi".data : Except String Txt)) (1/20)
      = .error .zeroDivisionError
    ∧ (∃ idx : ℕ, idx < 2
        ∧ (idx : ℤ).fmod (pyInt ((pyInt (30 : ℚ) : ℚ) * (1/20))) = 0
        ∧ ((1/30 : ℚ), "hi".data).1 = (idx : ℚ) / ((pyInt (30 : ℚ) : ℤ) : ℚ)) := by
  constructor
  · exact (extract_sampling_truncated (10 : ℚ) [0, 1]
      (fun _ : ℕ => (.ok "hi".data : Except String Txt)) (1/20)).1 (by decide) (by decide)
  · exact (extract_sampling_truncated (30 : ℚ) [0, 1]
      (fun _ : ℕ => (.ok "hi".data : Except String Txt)) (1/20)).2
      [((0 : ℚ), "hi".data), ((1/30 : ℚ), "hi".data)] (by decide) (by rfl)
      ((1/30 : ℚ), "hi".data) (by decide)

/-- C5 counterexample: with a 30 fps video and `interval_seconds = 0.05`,
the claimed interval `round(30 * 0.05) = round(1.5) = 2` (and clamping
cannot lower it), but the code computes `int(1.5) = 1` and samples every
frame: the output contains the timestamp `1/30`, which is not a multiple
of the claimed two-frame spacing. -/
theorem extract_sampling_round_counterexample :
    max 1 (pyRound ((pyInt (30 : ℚ) : ℚ) * (1/20))) = 2
    ∧ pyInt ((pyInt (30 : ℚ) : ℚ) * (1/20)) = 1
    ∧ extract_subtitles_model (30 : ℚ) [0, 1]
        (fun _ : ℕ => (.ok "hi".data : Except String Txt)) (1/20)
      = .ok [(0, "hi".data), (1/30, "hi".data)]
    ∧ ¬(∀ p ∈ [((0 : ℚ), "hi".data), ((1/30 : ℚ), "hi".data)],
          ∃ k : ℕ, p.1 = ((k * 2 : ℕ) : ℚ) / 30) := by
  refine ⟨by decide, by decide, by rfl, ?_⟩
  intro hall
  rcases hall ((1/30 : ℚ), "hi".data) (by simp) with ⟨k, hk⟩
  have h1 : ((k * 2 : ℕ) : ℚ) = 1 := by
    field_simp at hk
    push_cast at hk ⊢
    linarith
  have h2 : (k * 2 : ℕ) = 1 := by exact_mod_cast h1
  omega

/-!
### The retry decorator on `extract_text_from_frame`

Models the tenacity policy `retry(stop=stop_after_attempt(3),
wait=wait_exponential(multiplier=1, min=4, max=10), reraise=True)`:
up to 3 attempts, exponential waits clamped to `[4, 10]` seconds between
them, and on exhaustion the last attempt's exception is re-raised (not a
RetryError wrapper).
-/

/-- The wait slept after the `n`-th attempt fails:
`multiplier * 2^n` clamped to `[min, max] = [4, 10]` seconds. -/
def retryWait (n : Nat) : ℚ := max 4 (min ((2 : ℚ) ^ n) 10)

/-- The retried call: `attempt i` is the outcome of the `i`-th underlying
call (0-based).  Returns the overall outcome, the number of attempts made,
and the waits slept between attempts. -/
def retryCall {ε A : Type} (attempt : Nat → Except ε A) : Except ε A × Nat × List ℚ :=
  match attempt 0 with
  | .ok a => (.ok a, 1, [])
  | .error _ =>
    match attempt 1 with
    | .ok a => (.ok a, 2, [retryWait 1])
    | .error _ => (attempt 2, 3, [retryWait 1, retryWait 2])

/-- C6: the retrying recognizer makes at most 3 attempts; when the first
failures are followed by a success within the first 3 attempts, the
successful result is returned after exactly the attempts used, with
backoff waits (here clamped to the 4-second floor) slept between attempts;
when all 3 attempts fail, the final attempt's error is re-raised — the
underlying failure, not swallowed — with exactly 3 attempts made. -/
theorem retry_policy {ε A : Type} (f g : Nat → Except ε A) (a : A) (i : Nat)
    (hi : i < 3) (hfi : f i = .ok a) (hprev : ∀ j, j < i → ∃ e, f j = .error e)
    (hg : ∀ j, ∃ e, g j = .error e) :
    (retryCall f).1 = .ok a ∧ (retryCall f).2.1 = i + 1
    ∧ (retryCall g).1 = g 2 ∧ (retryCall g).2.1 = 3
    ∧ (∀ h : Nat → Except ε A, (retryCall h).2.1 ≤ 3)
    ∧ (retryCall g).2.2 = [4, 4] := by
  obtain ⟨e0, he0⟩ := hg 0
  obtain ⟨e1, he1⟩ := hg 1
  have hw1 : retryWait 1 = 4 := by norm_num [retryWait]
  have hw2 : retryWait 2 = 4 := by norm_num [retryWait]
  have hbound : ∀ h : Nat → Except ε A, (retryCall h).2.1 ≤ 3 := by
    intro h
    unfold retryCall
    cases h 0 <;> cases h 1 <;> simp
  have hgpart : (retryCall g).1 = g 2 ∧ (retryCall g).2.1 = 3
      ∧ (retryCall g).2.2 = [4, 4] := by
    unfold retryCall
    rw [he0, he1]
    exact ⟨rfl, rfl, by rw [hw1, hw2]⟩
  have hfpart : (retryCall f).1 = .ok a ∧ (retryCall f).2.1 = i + 1 := by
    match i, hi with
    | 0, _ =>
      unfold retryCall
      rw [hfi]
      exact ⟨rfl, rfl⟩
    | 1, _ =>
      obtain ⟨e, he⟩ := hprev 0 (by omega)
      unfold retryCall
      rw [he, hfi]
      exact ⟨rfl, rfl⟩
    | 2, _ =>
      obtain ⟨ea, hea⟩ := hprev 0 (by omega)
      obtain ⟨eb, heb⟩ := hprev 1 (by omega)
      unfold retryCall
      rw [hea, heb, hfi]
      exact ⟨rfl, rfl⟩
  exact ⟨hfpart.1, hfpart.2, hgpart.1, hgpart.2.1, hbound, hgpart.2.2⟩

/-- Witness for `retry_policy`: a recognizer failing twice then succeeding
returns the success after 3 attempts; one failing always re-raises its
final error after exactly 3 attempts with two 4-second waits. -/
theorem retry_policy_witness :
    (retryCall (fun i => if i = 2 then (.ok 7 : Except ℕ ℕ) else .error i)).1 = .ok 7
    ∧ (retryCall (fun i => if i = 2 then (.ok 7 : Except ℕ ℕ) else .error i)).2.1 = 3
    ∧ (retryCall (fun i => (.error i : Except ℕ ℕ))).1 = .error 2
    ∧ (retryCall (fun i => (.error i : Except ℕ ℕ))).2.1 = 3
    ∧ (retryCall (fun i => (.error i : Except ℕ ℕ))).2.2 = [4, 4] := by
  have h := retry_policy (fun i => if i = 2 then (.ok 7 : Except ℕ ℕ) else .error i)
    (fun i => (.error i : Except ℕ ℕ)) 7 2 (by omega) (by simp)
    (fun j hj => ⟨j, by
      have hj2 : j ≠ 2 := by omega
      simp [hj2]⟩)
    (fun j => ⟨j, rfl⟩)
  exact ⟨h.1, h.2.1, h.2.2.1.trans rfl, h.2.2.2.1, h.2.2.2.2.2⟩

/-!
### The pipeline `smart_subtitle.process_smart_subtitle`

Modelled over the outcomes of its three effectful collaborators: the
video-branch extraction, the audio extraction (`extract_audio_from_video`)
and the transcription request inside `transcribe_audio`.  Exceptions from
the first two propagate to the pipeline's outer handler (`"处理出错: ..."`);
a transcription failure is caught *inside* `transcribe_audio` and becomes
an error string, which the audio-line parser then turns into no entries.
-/

/-- Decimal digits of a natural number (the fuel bounds the digit count,
making the recursion structural). -/
def natToCharsGo : Nat → Nat → Txt
  | 0, _ => []
  | fuel + 1, n =>
    if n < 10 then [Nat.digitChar n]
    else natToCharsGo fuel (n / 10) ++ [Nat.digitChar (n % 10)]

/-- Python `str` of a non-negative int. -/
def natToChars (n : Nat) : Txt := natToCharsGo (n + 1) n

/-- Python `str` of an int. -/
def intToChars (z : ℤ) : Txt :=
  if z < 0 then '-' :: natToChars (-z).toNat else natToChars z.toNat

/-- `"\n".join`. -/
def joinLines (ls : List Txt) : Txt := (ls.intersperse ['\n']).flatten

/-- Python `str.split('\n')`. -/
def splitNl : Txt → List Txt
  | [] => [[]]
  | c :: rest =>
    if c = '\n' then [] :: splitNl rest
    else
      match splitNl rest with
      | [] => [[c]]
      | l :: ls => (c :: l) :: ls

/-- One rendered line `"[{int(t)}s] {text}"`, the format both
`transcribe_audio` and the smart-subtitle formatter emit. -/
def renderSeg (p : ℚ × Txt) : Txt :=
  '[' :: (intToChars (pyInt p.1) ++ 's' :: ']' :: ' ' :: p.2)

/-- `audio_analysis.transcribe_audio`: renders the transcription segments
(one line per non-empty stripped text) or, catching any failure
internally, returns an error string. -/
def transcribe_audio_model (outcome : Except Txt (List (ℚ × Txt))) : Txt :=
  match outcome with
  | .error e => "转录音频时出错: ".data ++ e
  | .ok segs =>
    let lines := segs.filterMap fun s =>
      let t := pyStrip s.2
      if t = [] then none else some (renderSeg (s.1, t))
    if lines = [] then "未能识别到任何语音内容".data else joinLines lines

/-- A decimal digit's value. -/
def digitVal? (c : Char) : Option Nat :=
  if '0' ≤ c ∧ c ≤ '9' then some (c.toNat - '0'.toNat) else none

def parseNatGo : Txt → Nat → Option Nat
  | [], acc => some acc
  | c :: rest, acc =>
    match digitVal? c with
    | none => none
    | some d => parseNatGo rest (acc * 10 + d)

/-- Python `float()` on the plain decimal forms the pipeline produces:
optional sign, digits with an optional fractional part.  (Exponent,
infinity and nan spellings are not modelled; the parse failure of any
other form maps to the `except` that skips the line.) -/
def parsePyFloat (s : Txt) : Option ℚ :=
  let t := pyStrip s
  let sb : ℚ × Txt :=
    match t with
    | '-' :: rest => (-1, rest)
    | '+' :: rest => (1, rest)
    | _ => (1, t)
  let body := sb.2
  if '.' ∈ body then
    let ip := body.takeWhile (fun c => c ≠ '.')
    let fp := (body.dropWhile (fun c => c ≠ '.')).drop 1
    if ip = [] ∧ fp = [] then none
    else
      match parseNatGo ip 0, parseNatGo fp 0 with
      | some i, some f => some (sb.1 * ((i : ℚ) + (f : ℚ) / (10 : ℚ) ^ fp.length))
      | _, _ => none
  else
    match body with
    | [] => none
    | _ =>
      match parseNatGo body 0 with
      | some n => some (sb.1 * (n : ℚ))
      | none => none

/-- Index of the first occurrence of `pat` (Python `str.index`; `none`
where Python raises `ValueError`). -/
def findSub : Txt → Txt → Option Nat
  | l, pat =>
    if startsWithL l pat then some 0
    else
      match l with
      | [] => none
      | _ :: l' => (findSub l' pat).map (· + 1)

/-- One line of the audio parser in `process_smart_subtitle` (lines
124-131): the line must start with `[` and contain `]`; the seconds are
`line[1:line.index("s]")]` fed to `float`, the text is everything after
the first `]`, stripped; any failure skips the line. -/
def parseAudioLine (line : Txt) : Option (ℚ × Txt) :=
  if startsWithL line ['['] = true ∧ ']' ∈ line then
    match findSub line "s]".data with
    | none => none
    | some i =>
      match parsePyFloat ((line.drop 1).take (i - 1)) with
      | none => none
      | some q =>
        match findSub line [']'] with
        | none => none
        | some j => some (q, pyStrip (line.drop (j + 1)))
  else none

def parseAudioContent (content : Txt) : List (ℚ × Txt) :=
  (splitNl content).filterMap parseAudioLine

/-- The output formatting of `process_smart_subtitle` (lines 139-145). -/
def formatSubs (subs : List (ℚ × Txt)) : Txt :=
  if subs = [] then "未能提取到有效字幕".data
  else joinLines (subs.map renderSeg)

/-- `smart_subtitle.process_smart_subtitle`. -/
def process_smart_subtitle_model
    (videoSubs : Except Txt (List (ℚ × Txt)))
    (audioExtract : Except Txt Unit)
    (transcription : Except Txt (List (ℚ × Txt))) : Txt :=
  match videoSubs with
  | .error e => "处理出错: ".data ++ e
  | .ok vs =>
    match audioExtract with
    | .error e => "处理出错: ".data ++ e
    | .ok _ =>
      let content := transcribe_audio_model transcription
      let audioSubs := parseAudioContent content
      formatSubs (merge_subtitles vs audioSubs)

example :
    process_smart_subtitle_model (.ok [((0 : ℚ), "hi".data)]) (.ok ()) (.ok [])
      = "[0s] hi".data := by decide
example :
    parseAudioContent (transcribe_audio_model (.ok [((3 : ℚ), "你好世界".data)]))
      = [((3 : ℚ), "你好世界".data)] := by decide

theorem splitNl_no_newline (l : Txt) (h : '\n' ∉ l) : splitNl l = [l] := by
  induction l with
  | nil => rfl
  | cons c rest ih =>
    rw [splitNl]
    rw [if_neg (fun hc => h (by rw [← hc]; exact List.mem_cons_self c rest))]
    rw [ih (fun hm => h (List.mem_cons_of_mem c hm))]

/-- C4 (amended): a transcription failure is caught inside
`transcribe_audio` — not at the pipeline level — and turned into an error
string that parses to no audio entries, so the merge proceeds with an empty
audio stream and the request still succeeds from the video stream alone.
An audio-extraction failure, by contrast, escapes to the pipeline's
handler: the whole request returns an error message and no merge happens. -/
theorem audio_branch_failure (vs : List (ℚ × Txt)) (e e2 : Txt)
    (henl : '\n' ∉ e) :
    process_smart_subtitle_model (.ok vs) (.ok ()) (.error e)
      = formatSubs (merge_subtitles vs [])
    ∧ process_smart_subtitle_model (.ok vs) (.error e2) (.ok [])
      = "处理出错: ".data ++ e2 := by
  constructor
  · show formatSubs (merge_subtitles vs
      (parseAudioContent ("转录音频时出错: ".data ++ e))) = _
    have hparse : parseAudioContent ("转录音频时出错: ".data ++ e) = [] := by
      unfold parseAudioContent
      rw [splitNl_no_newline _ (by
        intro hm
        rcases List.mem_append.mp hm with hm | hm
        · exact absurd hm (by decide)
        · exact henl hm)]
      rw [List.filterMap]
      have hline : parseAudioLine ("转录音频时出错: ".data ++ e) = none := by
        unfold parseAudioLine
        rw [if_neg]
        intro hcond
        have : startsWithL ('转' :: ("录音频时出错: ".data ++ e)) ['['] = true := hcond.1
        simp [startsWithL] at this
      rw [hline]
      rfl
    rw [hparse]
  · rfl

/-- Witness for `audio_branch_failure` at concrete inputs. -/
theorem audio_branch_failure_witness :
    process_smart_subtitle_model (.ok [((0 : ℚ), "hi".data)]) (.ok ()) (.error "x".data)
      = formatSubs (merge_subtitles [((0 : ℚ), "hi".data)] [])
    ∧ process_smart_subtitle_model (.ok [((0 : ℚ), "hi".data)]) (.error "b".data) (.ok [])
      = "处理出错: ".data ++ "b".data :=
  audio_branch_failure [((0 : ℚ), "hi".data)] "x".data "b".data (by decide)

/-- C4 counterexample: when audio *extraction* fails, the pipeline does not
merge with an empty audio stream — it fails the whole request with an
error message, unlike what the claim asserts. -/
theorem audio_extraction_failure_counterexample :
    process_smart_subtitle_model (.ok [((0 : ℚ), "hi".data)]) (.error "boom".data) (.ok [])
        = "处理出错: boom".data
    ∧ formatSubs (merge_subtitles [((0 : ℚ), "hi".data)] []) = "[0s] hi".data
    ∧ process_smart_subtitle_model (.ok [((0 : ℚ), "hi".data)]) (.error "boom".data) (.ok [])
        ≠ formatSubs (merge_subtitles [((0 : ℚ), "hi".data)] []) := by
  decide

end CGT
